import Mathlib

/-!
Verification of `src/basin_hopping/filter_results.py`.

The filter works on a list of atomic structures, each exposing one scalar
potential energy.  Energies are modelled exactly as rationals (the spec's
idealised reading of the float arithmetic); Python's `round(x, d)` is
round-half-to-even at `d` decimal places, `np.floor(np.log10(abs(e)))` is the
integer floor of the base-10 logarithm, i.e. `Int.log 10 |e|`, and
`np.unique(r, return_index=True)` yields the distinct values of `r` in
ascending order together with the index of the first occurrence of each.
-/

/-- One `ase.atoms.Atoms` object as the filter sees it: an opaque structure
(distinguished by `label`) exposing a scalar potential energy. -/
structure Atoms where
  energy : ℚ
  label : ℕ
deriving DecidableEq

instance : Inhabited Atoms := ⟨⟨0, 0⟩⟩

/-- `a.get_potential_energy()`. -/
def get_potential_energy (a : Atoms) : ℚ := a.energy

/-- Python `round(q)`: round to the nearest integer, ties to the even one. -/
def roundEven (q : ℚ) : ℤ :=
  if q - ⌊q⌋ < 1/2 then ⌊q⌋
  else if 1/2 < q - ⌊q⌋ then ⌊q⌋ + 1
  else if 2 ∣ ⌊q⌋ then ⌊q⌋ else ⌊q⌋ + 1

/-- Python `round(x, d)`: round-half-to-even at `d` decimal places
(`d` may be negative, meaning a power of ten above the decimal point). -/
def pyRound (x : ℚ) (d : ℤ) : ℚ := (roundEven (x * 10 ^ d) : ℚ) / 10 ^ d

/-- Line 38, one entry of `order_of_magnitudes`:
`np.floor(np.log10(np.abs(e)))`. -/
def order_of_magnitude (e : ℚ) : ℤ := Int.log 10 |e|

/-- Lines 38-44 for one structure: `positions_msd = -(order_of_magnitudes + 1)`,
`rounding = positions_msd + significant_figures`, then
`round(energy, rounding)`. -/
def roundedEnergy (significant_figures : ℤ) (e : ℚ) : ℚ :=
  pyRound e (-(order_of_magnitude e + 1) + significant_figures)

/-- Line 28: `sorted(atoms, key=lambda a: a.get_potential_energy())`
(Python's sort is stable; insertion sort is the stable model). -/
def sortedAtoms (atoms : List Atoms) : List Atoms :=
  List.insertionSort (fun a b => get_potential_energy a ≤ get_potential_energy b) atoms

/-- Lines 32-33: `indexes = potential_energies < 0; _atoms = _atoms[indexes]`. -/
def negativeAtoms (atoms : List Atoms) : List Atoms :=
  (sortedAtoms atoms).filter (fun a => get_potential_energy a < 0)

/-- Lines 30/34: the potential energies of the retained (sorted, negative)
structures. -/
def potential_energies (atoms : List Atoms) : List ℚ :=
  (negativeAtoms atoms).map get_potential_energy

/-- Line 44: `rounded = [round(energy, d) for (energy, d) in zip(...)]`. -/
def roundedList (atoms : List Atoms) (significant_figures : ℤ) : List ℚ :=
  (potential_energies atoms).map (roundedEnergy significant_figures)

/-- Line 47, the values part of `np.unique(rounded, return_index=True)`:
the distinct rounded values in ascending order. -/
def uniqueSorted (atoms : List Atoms) (significant_figures : ℤ) : List ℚ :=
  List.insertionSort (fun x y => x ≤ y) (roundedList atoms significant_figures).dedup

/-- Lines 10-52, `filter_local_minima`: for each distinct rounded value in
ascending order, the retained structure is the one at the first index of that
value in `rounded` (the index part of `np.unique(..., return_index=True)`),
taken from the sorted negative-energy array (`_atoms[indexes]`, line 48). -/
def filter_local_minima (atoms : List Atoms) (significant_figures : ℤ) : List Atoms :=
  ((uniqueSorted atoms significant_figures).map
      (fun v => (roundedList atoms significant_figures).indexOf v)).map
    (fun i => (negativeAtoms atoms).getD i default)

/-! ### Basic properties of half-even rounding -/

theorem floor_le_roundEven (q : ℚ) : ⌊q⌋ ≤ roundEven q := by
  unfold roundEven; split_ifs <;> omega

theorem roundEven_le_floor_add_one (q : ℚ) : roundEven q ≤ ⌊q⌋ + 1 := by
  unfold roundEven; split_ifs <;> omega

theorem le_roundEven_of_le {n : ℤ} {q : ℚ} (h : (n : ℚ) ≤ q) : n ≤ roundEven q :=
  le_trans (Int.le_floor.mpr h) (floor_le_roundEven q)

theorem roundEven_intCast (n : ℤ) : roundEven (n : ℚ) = n := by
  unfold roundEven
  rw [Int.floor_intCast, sub_self]
  norm_num

theorem roundEven_le_of_le {n : ℤ} {q : ℚ} (h : q ≤ (n : ℚ)) : roundEven q ≤ n := by
  rcases lt_or_eq_of_le h with h' | h'
  · have : ⌊q⌋ < n := Int.floor_lt.mpr h'
    have := roundEven_le_floor_add_one q
    omega
  · rw [h', roundEven_intCast]

theorem roundEven_mono {p q : ℚ} (h : p ≤ q) : roundEven p ≤ roundEven q := by
  rcases lt_or_eq_of_le (Int.floor_le_floor h) with hf | hf
  · calc roundEven p ≤ ⌊p⌋ + 1 := roundEven_le_floor_add_one p
      _ ≤ ⌊q⌋ := by omega
      _ ≤ roundEven q := floor_le_roundEven q
  · unfold roundEven
    rw [hf]
    have hpq : p - (⌊q⌋ : ℚ) ≤ q - (⌊q⌋ : ℚ) := by linarith
    split_ifs <;> first | omega | (exfalso; linarith)

/-! ### Properties of `pyRound` and `roundedEnergy` -/

theorem pyRound_mono {x y : ℚ} (d : ℤ) (h : x ≤ y) : pyRound x d ≤ pyRound y d := by
  have hp : (0 : ℚ) < 10 ^ d := zpow_pos (by norm_num) d
  unfold pyRound
  have hre : ((roundEven (x * 10 ^ d) : ℚ)) ≤ ((roundEven (y * 10 ^ d) : ℚ)) := by
    exact_mod_cast roundEven_mono (mul_le_mul_of_nonneg_right h hp.le)
  gcongr

theorem roundedEnergy_def {n : ℤ} {e : ℚ} :
    roundedEnergy n e =
      (roundEven (e * 10 ^ (-(order_of_magnitude e + 1) + n)) : ℚ) /
        10 ^ (-(order_of_magnitude e + 1) + n) := rfl

/-- For a negative energy the rounded value stays at or below `-10 ^ oom`. -/
theorem roundedEnergy_le_neg_zpow {n : ℤ} (hn : 1 ≤ n) {e : ℚ} (he : e < 0) :
    roundedEnergy n e ≤ -(10 : ℚ) ^ order_of_magnitude e := by
  have hten : (10 : ℚ) ≠ 0 := by norm_num
  have hp : (0 : ℚ) < 10 ^ (-(order_of_magnitude e + 1) + n) :=
    zpow_pos (by norm_num) _
  have habs : 0 < |e| := abs_pos.mpr he.ne
  have h1 : (10 : ℚ) ^ order_of_magnitude e ≤ |e| :=
    Int.zpow_log_le_self (by norm_num) habs
  have h2 : e ≤ -(10 : ℚ) ^ order_of_magnitude e := by
    rw [abs_of_neg he] at h1; linarith
  have hexp : order_of_magnitude e + (-(order_of_magnitude e + 1) + n) = n - 1 := by ring
  have hmul : e * 10 ^ (-(order_of_magnitude e + 1) + n) ≤ -(10 : ℚ) ^ (n - 1) := by
    calc e * 10 ^ (-(order_of_magnitude e + 1) + n)
        ≤ -(10 : ℚ) ^ order_of_magnitude e * 10 ^ (-(order_of_magnitude e + 1) + n) :=
          mul_le_mul_of_nonneg_right h2 hp.le
      _ = -((10 : ℚ) ^ order_of_magnitude e * 10 ^ (-(order_of_magnitude e + 1) + n)) := by ring
      _ = -(10 : ℚ) ^ (n - 1) := by rw [← zpow_add₀ hten, hexp]
  have hcast : ((-(10 ^ (n - 1).toNat) : ℤ) : ℚ) = -(10 : ℚ) ^ (n - 1) := by
    push_cast
    rw [← zpow_natCast (10 : ℚ) (n - 1).toNat, Int.toNat_of_nonneg (by omega)]
  have hre : roundEven (e * 10 ^ (-(order_of_magnitude e + 1) + n)) ≤ -(10 ^ (n - 1).toNat) :=
    roundEven_le_of_le (by rw [hcast]; exact hmul)
  have hre' : ((roundEven (e * 10 ^ (-(order_of_magnitude e + 1) + n)) : ℤ) : ℚ)
      ≤ -(10 : ℚ) ^ (n - 1) := by
    rw [← hcast]; exact_mod_cast hre
  have hrhs : -(10 : ℚ) ^ order_of_magnitude e
      = -(10 : ℚ) ^ (n - 1) / 10 ^ (-(order_of_magnitude e + 1) + n) := by
    rw [neg_div, ← zpow_sub₀ hten,
      show n - 1 - (-(order_of_magnitude e + 1) + n) = order_of_magnitude e from by ring]
  rw [roundedEnergy_def, hrhs]
  exact div_le_div_of_nonneg_right hre' hp.le

/-- For a negative energy the rounded value stays strictly above `-10 ^ (oom + 1)`,
weakly after rounding. -/
theorem neg_zpow_le_roundedEnergy {n : ℤ} (hn : 1 ≤ n) {e : ℚ} (he : e < 0) :
    -(10 : ℚ) ^ (order_of_magnitude e + 1) ≤ roundedEnergy n e := by
  have hten : (10 : ℚ) ≠ 0 := by norm_num
  have hp : (0 : ℚ) < 10 ^ (-(order_of_magnitude e + 1) + n) :=
    zpow_pos (by norm_num) _
  have h1 : |e| < (10 : ℚ) ^ (order_of_magnitude e + 1) :=
    Int.lt_zpow_succ_log_self (by norm_num) |e|
  have h2 : -(10 : ℚ) ^ (order_of_magnitude e + 1) ≤ e := by
    rw [abs_of_neg he] at h1; linarith
  have hexp : order_of_magnitude e + 1 + (-(order_of_magnitude e + 1) + n) = n := by ring
  have hmul : -(10 : ℚ) ^ n ≤ e * 10 ^ (-(order_of_magnitude e + 1) + n) := by
    calc -(10 : ℚ) ^ n
        = -((10 : ℚ) ^ (order_of_magnitude e + 1) * 10 ^ (-(order_of_magnitude e + 1) + n)) := by
          rw [← zpow_add₀ hten, hexp]
      _ = -(10 : ℚ) ^ (order_of_magnitude e + 1) * 10 ^ (-(order_of_magnitude e + 1) + n) := by
          ring
      _ ≤ e * 10 ^ (-(order_of_magnitude e + 1) + n) :=
          mul_le_mul_of_nonneg_right h2 hp.le
  have hcast : ((-(10 ^ n.toNat) : ℤ) : ℚ) = -(10 : ℚ) ^ n := by
    push_cast
    rw [← zpow_natCast (10 : ℚ) n.toNat, Int.toNat_of_nonneg (by omega)]
  have hre : -(10 ^ n.toNat) ≤ roundEven (e * 10 ^ (-(order_of_magnitude e + 1) + n)) :=
    le_roundEven_of_le (by rw [hcast]; exact hmul)
  have hre' : -(10 : ℚ) ^ n
      ≤ ((roundEven (e * 10 ^ (-(order_of_magnitude e + 1) + n)) : ℤ) : ℚ) := by
    rw [← hcast]; exact_mod_cast hre
  have hlhs : -(10 : ℚ) ^ (order_of_magnitude e + 1)
      = -(10 : ℚ) ^ n / 10 ^ (-(order_of_magnitude e + 1) + n) := by
    rw [neg_div, ← zpow_sub₀ hten,
      show n - (-(order_of_magnitude e + 1) + n) = order_of_magnitude e + 1 from by ring]
  rw [roundedEnergy_def, hlhs]
  exact div_le_div_of_nonneg_right hre' hp.le

/-- Rounding to `significant_figures ≥ 1` significant figures is monotone on the
negative reals. -/
theorem roundedEnergy_mono {n : ℤ} (hn : 1 ≤ n) {x y : ℚ} (hxy : x ≤ y) (hy : y < 0) :
    roundedEnergy n x ≤ roundedEnergy n y := by
  have hx : x < 0 := lt_of_le_of_lt hxy hy
  have hlog : order_of_magnitude y ≤ order_of_magnitude x := by
    apply Int.log_mono_right (abs_pos.mpr hy.ne)
    rw [abs_of_neg hx, abs_of_neg hy]; linarith
  rcases eq_or_lt_of_le hlog with heq | hlt
  · unfold roundedEnergy
    rw [show order_of_magnitude x = order_of_magnitude y from heq.symm]
    exact pyRound_mono _ hxy
  · calc roundedEnergy n x
        ≤ -(10 : ℚ) ^ order_of_magnitude x := roundedEnergy_le_neg_zpow hn hx
      _ ≤ -(10 : ℚ) ^ (order_of_magnitude y + 1) := by
          have := zpow_le_zpow_right₀ (show (1:ℚ) ≤ 10 by norm_num)
            (show order_of_magnitude y + 1 ≤ order_of_magnitude x by omega)
          linarith
      _ ≤ roundedEnergy n y := neg_zpow_le_roundedEnergy hn hy

/-! ### Structural facts about the pipeline -/

instance : IsTotal Atoms (fun a b => get_potential_energy a ≤ get_potential_energy b) :=
  ⟨fun a b => le_total (get_potential_energy a) (get_potential_energy b)⟩

instance : IsTrans Atoms (fun a b => get_potential_energy a ≤ get_potential_energy b) :=
  ⟨fun _ _ _ h1 h2 => le_trans h1 h2⟩

theorem sortedAtoms_sorted (atoms : List Atoms) :
    (sortedAtoms atoms).Sorted (fun a b => get_potential_energy a ≤ get_potential_energy b) :=
  List.sorted_insertionSort _ atoms

theorem negativeAtoms_sorted (atoms : List Atoms) :
    (negativeAtoms atoms).Sorted (fun a b => get_potential_energy a ≤ get_potential_energy b) :=
  (sortedAtoms_sorted atoms).filter _

theorem negativeAtoms_neg {atoms : List Atoms} {a : Atoms} (h : a ∈ negativeAtoms atoms) :
    get_potential_energy a < 0 := by
  rw [negativeAtoms, List.mem_filter] at h
  exact of_decide_eq_true h.2

theorem mem_negativeAtoms_of {atoms : List Atoms} {a : Atoms} (h : a ∈ atoms)
    (ha : get_potential_energy a < 0) : a ∈ negativeAtoms atoms := by
  rw [negativeAtoms, List.mem_filter]
  exact ⟨by rw [sortedAtoms, List.mem_insertionSort]; exact h, decide_eq_true ha⟩

theorem negativeAtoms_subset {atoms : List Atoms} {a : Atoms} (h : a ∈ negativeAtoms atoms) :
    a ∈ atoms := by
  rw [negativeAtoms, List.mem_filter, sortedAtoms, List.mem_insertionSort] at h
  exact h.1

theorem roundedList_length (atoms : List Atoms) (n : ℤ) :
    (roundedList atoms n).length = (negativeAtoms atoms).length := by
  simp [roundedList, potential_energies]

theorem roundedList_getElem (atoms : List Atoms) (n : ℤ) {i : ℕ}
    (hi : i < (roundedList atoms n).length) :
    (roundedList atoms n)[i] =
      roundedEnergy n (get_potential_energy ((negativeAtoms atoms).get
        ⟨i, by rw [← roundedList_length atoms n]; exact hi⟩)) := by
  simp [roundedList, potential_energies]

theorem mem_uniqueSorted {atoms : List Atoms} {n : ℤ} {v : ℚ} :
    v ∈ uniqueSorted atoms n ↔ v ∈ roundedList atoms n := by
  rw [uniqueSorted, List.mem_insertionSort, List.mem_dedup]

theorem uniqueSorted_sorted (atoms : List Atoms) (n : ℤ) :
    (uniqueSorted atoms n).Sorted (fun x y : ℚ => x ≤ y) :=
  List.sorted_insertionSort _ _

theorem uniqueSorted_nodup (atoms : List Atoms) (n : ℤ) :
    (uniqueSorted atoms n).Nodup :=
  ((List.perm_insertionSort _ _).nodup_iff).mpr (List.nodup_dedup _)

theorem uniqueSorted_pairwise_lt (atoms : List Atoms) (n : ℤ) :
    (uniqueSorted atoms n).Pairwise (fun x y : ℚ => x < y) := by
  have hs := uniqueSorted_sorted atoms n
  have hn := uniqueSorted_nodup atoms n
  rw [List.Sorted] at hs
  rw [List.Nodup] at hn
  refine List.Pairwise.imp₂ (fun x y hle hne => lt_of_le_of_ne hle hne) hs hn

theorem indexOf_le_of_getElem {α : Type} [DecidableEq α] {v : α} :
    ∀ {l : List α} {j : ℕ} (hj : j < l.length), l[j] = v → l.indexOf v ≤ j := by
  intro l
  induction l with
  | nil => intro j hj; simp at hj
  | cons a t ih =>
    intro j hj hv
    cases j with
    | zero =>
      simp only [List.getElem_cons_zero] at hv
      simp [hv, List.indexOf_cons_self]
    | succ k =>
      by_cases hav : a = v
      · rw [List.indexOf_cons_eq _ hav]; omega
      · rw [List.indexOf_cons_ne _ hav]
        have := ih (by simpa using hj) (by simpa using hv)
        omega

/-- The structure retained for the distinct rounded value `v`: the one at the
first index of `v` in the rounded array. -/
def representative (atoms : List Atoms) (n : ℤ) (v : ℚ) : Atoms :=
  (negativeAtoms atoms).getD ((roundedList atoms n).indexOf v) default

theorem filter_local_minima_eq_map (atoms : List Atoms) (n : ℤ) :
    filter_local_minima atoms n = (uniqueSorted atoms n).map (representative atoms n) := by
  rw [filter_local_minima, List.map_map]
  rfl

theorem indexOf_lt_neg_length {atoms : List Atoms} {n : ℤ} {v : ℚ}
    (hv : v ∈ uniqueSorted atoms n) :
    (roundedList atoms n).indexOf v < (negativeAtoms atoms).length := by
  rw [← roundedList_length atoms n]
  exact List.indexOf_lt_length.mpr (mem_uniqueSorted.mp hv)

theorem representative_eq_getElem {atoms : List Atoms} {n : ℤ} {v : ℚ}
    (hv : v ∈ uniqueSorted atoms n) :
    representative atoms n v =
      (negativeAtoms atoms).get
        ⟨(roundedList atoms n).indexOf v, indexOf_lt_neg_length hv⟩ :=
  List.getD_eq_getElem _ _ (indexOf_lt_neg_length hv)

theorem representative_mem {atoms : List Atoms} {n : ℤ} {v : ℚ}
    (hv : v ∈ uniqueSorted atoms n) :
    representative atoms n v ∈ negativeAtoms atoms := by
  rw [representative_eq_getElem hv]
  exact List.get_mem _ _ _

theorem representative_rounded {atoms : List Atoms} {n : ℤ} {v : ℚ}
    (hv : v ∈ uniqueSorted atoms n) :
    roundedEnergy n (get_potential_energy (representative atoms n v)) = v := by
  have hv' := mem_uniqueSorted.mp hv
  have hidx : (roundedList atoms n).indexOf v < (roundedList atoms n).length :=
    List.indexOf_lt_length.mpr hv'
  have h1 : (roundedList atoms n)[(roundedList atoms n).indexOf v] = v :=
    List.indexOf_get hidx
  rw [roundedList_getElem atoms n hidx] at h1
  rw [representative_eq_getElem hv]
  exact h1

theorem representative_neg {atoms : List Atoms} {n : ℤ} {v : ℚ}
    (hv : v ∈ uniqueSorted atoms n) :
    get_potential_energy (representative atoms n v) < 0 :=
  negativeAtoms_neg (representative_mem hv)

/-- The retained structure has the smallest energy among all (negative, sorted)
structures whose rounded energy is the same value `v`. -/
theorem representative_min {atoms : List Atoms} {n : ℤ} {v : ℚ}
    (hv : v ∈ uniqueSorted atoms n) {b : Atoms} (hb : b ∈ negativeAtoms atoms)
    (hbv : roundedEnergy n (get_potential_energy b) = v) :
    get_potential_energy (representative atoms n v) ≤ get_potential_energy b := by
  obtain ⟨j, hj, hbj⟩ := List.getElem_of_mem hb
  have hj' : j < (roundedList atoms n).length := by
    rw [roundedList_length]; exact hj
  have hgj : (roundedList atoms n)[j] = v := by
    rw [roundedList_getElem atoms n hj']
    rw [← hbj] at hbv
    exact hbv
  have hle : (roundedList atoms n).indexOf v ≤ j := indexOf_le_of_getElem hj' hgj
  rw [representative_eq_getElem hv, ← hbj]
  rcases eq_or_lt_of_le hle with heq | hlt
  · subst heq
    exact le_rfl
  · have := (negativeAtoms_sorted atoms).rel_get_of_lt
      (a := ⟨(roundedList atoms n).indexOf v, indexOf_lt_neg_length hv⟩)
      (b := ⟨j, hj⟩) hlt
    simpa using this

/-! ### Output-level facts -/

theorem filter_output_sorted (atoms : List Atoms) {n : ℤ} (hn : 1 ≤ n) :
    (filter_local_minima atoms n).Sorted
      (fun a b => get_potential_energy a ≤ get_potential_energy b) := by
  rw [filter_local_minima_eq_map, List.Sorted, List.pairwise_map]
  have hpl := uniqueSorted_pairwise_lt atoms n
  rw [List.pairwise_iff_getElem] at hpl ⊢
  intro i j hi hj hij
  have hvi : (uniqueSorted atoms n)[i] ∈ uniqueSorted atoms n := List.getElem_mem _
  have hvj : (uniqueSorted atoms n)[j] ∈ uniqueSorted atoms n := List.getElem_mem _
  by_contra hcon
  push_neg at hcon
  have hmono := roundedEnergy_mono hn hcon.le (representative_neg hvi)
  rw [representative_rounded hvi, representative_rounded hvj] at hmono
  exact absurd hmono (not_le.mpr (hpl i j hi hj hij))

theorem mem_filter_output {atoms : List Atoms} {n : ℤ} {b : Atoms}
    (hb : b ∈ filter_local_minima atoms n) : b ∈ negativeAtoms atoms := by
  rw [filter_local_minima_eq_map] at hb
  obtain ⟨v, hv, rfl⟩ := List.mem_map.mp hb
  exact representative_mem hv

theorem filter_local_minima_nil (n : ℤ) : filter_local_minima [] n = [] := rfl

theorem filter_eq_nil_of_nonneg {atoms : List Atoms}
    (h : ∀ a ∈ atoms, 0 ≤ get_potential_energy a) (n : ℤ) :
    filter_local_minima atoms n = [] := by
  have hneg : negativeAtoms atoms = [] := by
    rw [negativeAtoms, List.filter_eq_nil_iff]
    intro a ha
    simp only [decide_eq_true_eq, not_lt]
    exact h a (by rwa [sortedAtoms, List.mem_insertionSort] at ha)
  have hrl : roundedList atoms n = [] := by
    rw [roundedList, potential_energies, hneg]
    rfl
  rw [filter_local_minima_eq_map]
  simp [uniqueSorted, hrl]

theorem filter_output_ne_nil_iff (atoms : List Atoms) (n : ℤ) :
    filter_local_minima atoms n ≠ [] ↔ ∃ a ∈ atoms, get_potential_energy a < 0 := by
  rw [filter_local_minima_eq_map, ne_eq, List.map_eq_nil_iff]
  constructor
  · intro h
    obtain ⟨v, hv⟩ := List.exists_mem_of_ne_nil _ h
    have hv' := mem_uniqueSorted.mp hv
    rw [roundedList, potential_energies, List.map_map] at hv'
    obtain ⟨a, ha, _⟩ := List.mem_map.mp hv'
    exact ⟨a, negativeAtoms_subset ha, negativeAtoms_neg ha⟩
  · rintro ⟨a, ha, hneg⟩ hnil
    have hmem : roundedEnergy n (get_potential_energy a) ∈ uniqueSorted atoms n := by
      rw [mem_uniqueSorted, roundedList, potential_energies]
      exact List.mem_map_of_mem _ (List.mem_map_of_mem _ (mem_negativeAtoms_of ha hneg))
    rw [hnil] at hmem
    exact absurd hmem (List.not_mem_nil _)

theorem filter_output_map_rounded (atoms : List Atoms) (n : ℤ) :
    (filter_local_minima atoms n).map (fun a => roundedEnergy n (get_potential_energy a)) =
      uniqueSorted atoms n := by
  rw [filter_local_minima_eq_map, List.map_map]
  conv_rhs => rw [← List.map_id (uniqueSorted atoms n)]
  exact List.map_congr_left fun v hv => representative_rounded hv

theorem nodup_indexOf_getElem {α : Type} [DecidableEq α] {l : List α} (hnd : l.Nodup)
    {i : ℕ} (hi : i < l.length) : l.indexOf l[i] = i := by
  have h1 : l.indexOf l[i] ≤ i := indexOf_le_of_getElem hi rfl
  have h2 : l.indexOf l[i] < l.length := List.indexOf_lt_length.mpr (List.getElem_mem hi)
  have h3 : l[l.indexOf l[i]] = l[i] := List.indexOf_get h2
  exact (List.Nodup.getElem_inj_iff hnd).mp h3

theorem filter_output_length (atoms : List Atoms) (n : ℤ) :
    (filter_local_minima atoms n).length = (uniqueSorted atoms n).length := by
  rw [filter_local_minima_eq_map, List.length_map]

/-- Filtering an already-filtered list changes nothing. -/
theorem filter_local_minima_idem (atoms : List Atoms) {n : ℤ} (hn : 1 ≤ n) :
    filter_local_minima (filter_local_minima atoms n) n = filter_local_minima atoms n := by
  have hA : sortedAtoms (filter_local_minima atoms n) = filter_local_minima atoms n :=
    (filter_output_sorted atoms hn).insertionSort_eq
  have hB : negativeAtoms (filter_local_minima atoms n) = filter_local_minima atoms n := by
    rw [negativeAtoms, hA]
    apply List.filter_eq_self.mpr
    intro a ha
    exact decide_eq_true (negativeAtoms_neg (mem_filter_output ha))
  have hC : roundedList (filter_local_minima atoms n) n = uniqueSorted atoms n := by
    rw [roundedList, potential_energies, hB, List.map_map]
    exact filter_output_map_rounded atoms n
  have hD : uniqueSorted (filter_local_minima atoms n) n = uniqueSorted atoms n := by
    rw [uniqueSorted, hC, List.dedup_eq_self.mpr (uniqueSorted_nodup atoms n)]
    exact (uniqueSorted_sorted atoms n).insertionSort_eq
  rw [filter_local_minima_eq_map (filter_local_minima atoms n) n, hD]
  apply List.ext_getElem
  · rw [List.length_map, filter_output_length]
  · intro i hi1 hi2
    have hi' : i < (uniqueSorted atoms n).length := by
      rwa [List.length_map] at hi1
    rw [List.getElem_map, representative, hB, hC,
      nodup_indexOf_getElem (uniqueSorted_nodup atoms n) hi']
    exact List.getD_eq_getElem _ _ hi2

/-! ### The spec's "round to n significant figures" rule (§4.1) -/

/-- Modelled from the spec, §4.1: two energies "agree to `n` significant
figures" when rounding each onto the grid of its n-th significant digit
(grid step `10 ^ (order_of_magnitude + 1 - n)`, round-half-to-even) yields
the same value.  This is the grid formulation of the §4.1 rule. -/
def roundToSigFig (n : ℤ) (x : ℚ) : ℚ :=
  (roundEven (x / 10 ^ (order_of_magnitude x + 1 - n)) : ℚ) *
    10 ^ (order_of_magnitude x + 1 - n)

theorem roundedEnergy_eq_roundToSigFig (n : ℤ) (x : ℚ) :
    roundedEnergy n x = roundToSigFig n x := by
  rw [roundedEnergy_def, roundToSigFig,
    show x / 10 ^ (order_of_magnitude x + 1 - n)
        = x * 10 ^ (-(order_of_magnitude x + 1) + n) from by
      rw [div_eq_mul_inv, ← zpow_neg,
        show -(order_of_magnitude x + 1 - n) = -(order_of_magnitude x + 1) + n from by ring],
    show ((10:ℚ)) ^ (order_of_magnitude x + 1 - n)
        = ((10:ℚ) ^ (-(order_of_magnitude x + 1) + n))⁻¹ from by
      rw [← zpow_neg,
        show -(-(order_of_magnitude x + 1) + n) = order_of_magnitude x + 1 - n from by ring],
    ← div_eq_mul_inv]

/-! ### Evaluating `Int.log` on concrete inputs -/

theorem int_log_eq_of_bounds {q : ℚ} {k : ℤ} (h0 : 0 < q) (h1 : (10:ℚ) ^ k ≤ q)
    (h2 : q < (10:ℚ) ^ (k + 1)) : Int.log 10 q = k := by
  have ha : k ≤ Int.log 10 q := (Int.zpow_le_iff_le_log (by norm_num) h0).mp h1
  have hb : Int.log 10 q < k + 1 := (Int.lt_zpow_iff_log_lt (by norm_num) h0).mp h2
  omega

/-- Every energy in `[-10, -1]` has magnitude order `0`. -/
theorem oom_of_neg_unit {e : ℚ} (h1 : e ≤ -1) (h2 : -10 < e) : order_of_magnitude e = 0 := by
  have he : e < 0 := by linarith
  rw [order_of_magnitude]
  apply int_log_eq_of_bounds (abs_pos.mpr he.ne)
  · rw [abs_of_neg he]; norm_num; linarith
  · rw [abs_of_neg he]; norm_num; linarith

/-! ### Concrete scenario of spec §8 -/

/-- Four structures with energies -1.001, -1.002, -1.02, -2.5. -/
def exampleList1 : List Atoms :=
  [⟨-1001/1000, 0⟩, ⟨-501/500, 1⟩, ⟨-51/50, 2⟩, ⟨-5/2, 3⟩]

theorem ex1_sorted : sortedAtoms exampleList1 =
    [⟨-5/2, 3⟩, ⟨-51/50, 2⟩, ⟨-501/500, 1⟩, ⟨-1001/1000, 0⟩] := by
  norm_num [exampleList1, sortedAtoms, List.insertionSort, List.orderedInsert,
    get_potential_energy]

theorem ex1_negAtoms : negativeAtoms exampleList1 =
    [⟨-5/2, 3⟩, ⟨-51/50, 2⟩, ⟨-501/500, 1⟩, ⟨-1001/1000, 0⟩] := by
  rw [negativeAtoms, ex1_sorted]
  norm_num [List.filter, get_potential_energy]

theorem re_ex1_a : roundedEnergy 2 (-5/2 : ℚ) = -5/2 := by
  rw [roundedEnergy_def, oom_of_neg_unit (by norm_num) (by norm_num)]
  norm_num [roundEven]

theorem re_ex1_b : roundedEnergy 2 (-51/50 : ℚ) = -1 := by
  rw [roundedEnergy_def, oom_of_neg_unit (by norm_num) (by norm_num)]
  norm_num [roundEven]

theorem re_ex1_c : roundedEnergy 2 (-501/500 : ℚ) = -1 := by
  rw [roundedEnergy_def, oom_of_neg_unit (by norm_num) (by norm_num)]
  norm_num [roundEven]

theorem re_ex1_d : roundedEnergy 2 (-1001/1000 : ℚ) = -1 := by
  rw [roundedEnergy_def, oom_of_neg_unit (by norm_num) (by norm_num)]
  norm_num [roundEven]

theorem ex1_roundedList : roundedList exampleList1 2 = [-5/2, -1, -1, -1] := by
  rw [roundedList, potential_energies, ex1_negAtoms]
  simp only [List.map_cons, List.map_nil, get_potential_energy]
  rw [re_ex1_a, re_ex1_b, re_ex1_c, re_ex1_d]

theorem ex1_unique : uniqueSorted exampleList1 2 = [-5/2, -1] := by
  rw [uniqueSorted, ex1_roundedList,
    List.dedup_cons_of_not_mem (by norm_num),
    List.dedup_cons_of_mem (by norm_num),
    List.dedup_cons_of_mem (by norm_num),
    List.dedup_cons_of_not_mem (by norm_num),
    List.dedup_nil]
  norm_num [List.insertionSort, List.orderedInsert]

theorem eval_filter_ex1 :
    filter_local_minima exampleList1 2 = [⟨-5/2, 3⟩, ⟨-51/50, 2⟩] := by
  have i1 : (roundedList exampleList1 2).indexOf (-5/2 : ℚ) = 0 := by
    rw [ex1_roundedList]; exact List.indexOf_cons_self _ _
  have i2 : (roundedList exampleList1 2).indexOf (-1 : ℚ) = 1 := by
    rw [ex1_roundedList, List.indexOf_cons_ne _ (by norm_num : (-5/2 : ℚ) ≠ -1),
      List.indexOf_cons_self]
  rw [filter_local_minima_eq_map, ex1_unique]
  simp only [List.map_cons, List.map_nil, representative]
  rw [i1, i2, ex1_negAtoms]
  rfl

/-! ### A double-rounding scenario: energies -1.4489 and -1.4501 -/

/-- Two structures whose energies agree to 3 significant figures (both round
to -1.45) but not to 2 (they round to -1.4 and -1.5). -/
def exampleList3 : List Atoms :=
  [⟨-14489/10000, 0⟩, ⟨-14501/10000, 1⟩]

theorem ex3_sorted : sortedAtoms exampleList3 =
    [⟨-14501/10000, 1⟩, ⟨-14489/10000, 0⟩] := by
  norm_num [exampleList3, sortedAtoms, List.insertionSort, List.orderedInsert,
    get_potential_energy]

theorem ex3_negAtoms : negativeAtoms exampleList3 =
    [⟨-14501/10000, 1⟩, ⟨-14489/10000, 0⟩] := by
  rw [negativeAtoms, ex3_sorted]
  norm_num [List.filter, get_potential_energy]

theorem re_ex3_a2 : roundedEnergy 2 (-14501/10000 : ℚ) = -3/2 := by
  rw [roundedEnergy_def, oom_of_neg_unit (by norm_num) (by norm_num)]
  norm_num [roundEven]

theorem re_ex3_b2 : roundedEnergy 2 (-14489/10000 : ℚ) = -7/5 := by
  rw [roundedEnergy_def, oom_of_neg_unit (by norm_num) (by norm_num)]
  norm_num [roundEven]

theorem re_ex3_a3 : roundedEnergy 3 (-14501/10000 : ℚ) = -29/20 := by
  rw [roundedEnergy_def, oom_of_neg_unit (by norm_num) (by norm_num)]
  norm_num [roundEven]

theorem re_ex3_b3 : roundedEnergy 3 (-14489/10000 : ℚ) = -29/20 := by
  rw [roundedEnergy_def, oom_of_neg_unit (by norm_num) (by norm_num)]
  norm_num [roundEven]

theorem ex3_unique2 : uniqueSorted exampleList3 2 = [-3/2, -7/5] := by
  rw [uniqueSorted, roundedList, potential_energies, ex3_negAtoms]
  simp only [List.map_cons, List.map_nil, get_potential_energy]
  rw [re_ex3_a2, re_ex3_b2,
    List.dedup_cons_of_not_mem (by norm_num),
    List.dedup_cons_of_not_mem (by norm_num),
    List.dedup_nil]
  norm_num [List.insertionSort, List.orderedInsert]

theorem ex3_unique3 : uniqueSorted exampleList3 3 = [-29/20] := by
  rw [uniqueSorted, roundedList, potential_energies, ex3_negAtoms]
  simp only [List.map_cons, List.map_nil, get_potential_energy]
  rw [re_ex3_a3, re_ex3_b3,
    List.dedup_cons_of_mem (by norm_num),
    List.dedup_cons_of_not_mem (by norm_num),
    List.dedup_nil]
  norm_num [List.insertionSort, List.orderedInsert]

/-! ### The CLI glue (lines 85-96) -/

/-- A Python value as passed around by the CLI glue: `None`, a string or an
integer. -/
inductive PyVal where
  | pynone : PyVal
  | pystr : String → PyVal
  | pyint : ℤ → PyVal
deriving DecidableEq

/-- The formal parameters of `filter_trajectory(input, significant_figures,
output=None)` (line 54), after Python binds the actual arguments. -/
structure FilterTrajectoryCall where
  input : PyVal
  significant_figures : PyVal
  output : PyVal
deriving DecidableEq

/-- Line 86: `main` calls `filter_trajectory(kwargs.get('input'),
kwargs.get('output', None), kwargs.get('significant_figures', 2))` with three
positional arguments; Python binds them in order to the parameters `input`,
`significant_figures` and `output` of line 54.  The argparse values are
`input : String` (required), `output : Option String` (default `None`) and
`significant_figures : ℤ` (default 2). -/
def main_call (input : String) (output : Option String) (significant_figures : ℤ) :
    FilterTrajectoryCall :=
  { input := PyVal.pystr input,
    significant_figures :=
      match output with
      | Option.none => PyVal.pynone
      | Option.some s => PyVal.pystr s,
    output := PyVal.pyint significant_figures }

/-! ### `filter_trajectory` (lines 54-83): resource handling -/

/-- A file-handle event of one `filter_trajectory` run: opening or closing the
trajectory at a path (the `Bool` marks the `'w'` write handle) or writing one
structure. -/
inductive Ev where
  | openTraj : String → Bool → Ev
  | closeTraj : String → Bool → Ev
  | wrote : Atoms → Ev
deriving DecidableEq

/-- Exception-aware event trace of `filter_trajectory(input,
significant_figures, output)`, lines 68-83.  The body is straight-line code
with no `try`/`with` block: `Trajectory(input)` is opened; the read/filter step
runs (`raiseInFilter` models `trajectory[:]` or `filter_local_minima` raising);
`trajectory.close()`; `Trajectory(output, 'w')` is opened; each retained
structure is written in order (`raiseAtWrite = some k` models the `k`-th
`trajectory.write` call raising, when there is one); `trajectory.close()`.
An exception propagates immediately, truncating the trace; `output = None`
defaults to `input` (lines 67-68). -/
def filter_trajectory_trace (input : String) (significant_figures : ℤ)
    (output : Option String) (atomsIn : List Atoms)
    (raiseInFilter : Bool) (raiseAtWrite : Option ℕ) : List Ev :=
  let out := output.getD input
  if raiseInFilter then [Ev.openTraj input false]
  else
    let atoms := filter_local_minima atomsIn significant_figures
    let pre := [Ev.openTraj input false, Ev.closeTraj input false, Ev.openTraj out true]
    match raiseAtWrite with
    | Option.some k =>
      if k < atoms.length then pre ++ (atoms.take k).map Ev.wrote
      else pre ++ atoms.map Ev.wrote ++ [Ev.closeTraj out true]
    | Option.none => pre ++ atoms.map Ev.wrote ++ [Ev.closeTraj out true]

/-- Every handle opened in the trace is also closed: open and close events are
balanced for every path and mode. -/
def handlesClosed (t : List Ev) : Prop :=
  ∀ p w, t.count (Ev.openTraj p w) = t.count (Ev.closeTraj p w)

/-! ### NaN energies: the sign-filter step at float level -/

/-- A float as `numpy` sees it in the comparison `potential_energies < 0`:
an exact value or NaN. -/
inductive FloatVal where
  | val : ℚ → FloatVal
  | nan : FloatVal
deriving DecidableEq

/-- IEEE `x < 0`: false when `x` is NaN. -/
def floatLtZero : FloatVal → Bool
  | FloatVal.val q => decide (q < 0)
  | FloatVal.nan => false

/-- An `ase.atoms.Atoms` whose stored energy may be NaN. -/
structure AtomsF where
  energy : FloatVal
  label : ℕ
deriving DecidableEq

/-- Lines 32-34 at float level.  The sort of line 28 only permutes the list
(its order on NaN keys is comparison-dependent), so `sortedF` stands for the
array after sorting; the boolean mask `potential_energies < 0` then keeps
exactly the structures whose energy compares below zero. -/
def negativeAtomsF (sortedF : List AtomsF) : List AtomsF :=
  sortedF.filter (fun a => floatLtZero a.energy)

theorem count_wrote_open (l : List Atoms) (p : String) (w : Bool) :
    (l.map Ev.wrote).count (Ev.openTraj p w) = 0 := by
  rw [List.count_eq_zero]
  simp

theorem count_wrote_close (l : List Atoms) (p : String) (w : Bool) :
    (l.map Ev.wrote).count (Ev.closeTraj p w) = 0 := by
  rw [List.count_eq_zero]
  simp

/-- On the path where the read/filter step raises, the trace is the lone
opening of the input handle: no close ever happens. -/
theorem trace_filter_raise (input : String) (n : ℤ) (output : Option String)
    (atomsIn : List Atoms) (k : Option ℕ) :
    filter_trajectory_trace input n output atomsIn true k = [Ev.openTraj input false] := rfl

/-- On an execution where nothing raises, every opened handle is closed. -/
theorem trace_success_closed (input : String) (n : ℤ) (output : Option String)
    (atomsIn : List Atoms) :
    handlesClosed (filter_trajectory_trace input n output atomsIn false Option.none) := by
  intro p w
  simp [filter_trajectory_trace, List.count_append, List.count_cons,
    count_wrote_open, count_wrote_close]

/-! ### The claims -/

/-- C1: on the four structures with energies -1.001, -1.002, -1.02, -2.5 and
`significant_figures = 2`, `filter_local_minima` returns exactly two
structures, whose unrounded energies in output order are -2.5 then -1.02. -/
theorem spec_C1_concrete :
    (filter_local_minima exampleList1 2).length = 2 ∧
      (filter_local_minima exampleList1 2).map get_potential_energy = [-5/2, -51/50] := by
  rw [eval_filter_ex1]
  exact ⟨rfl, rfl⟩

/-- C2: FALSE of the code (code bug).  On the default CLI invocation
(input="in.traj", output=None, significant-figures=2), line 86 passes the
parsed output value `None` positionally into `filter_trajectory`'s
`significant_figures` parameter and the parsed significant-figures value `2`
into its `output` parameter — not the wiring the claim (and the signature of
line 54) describes. -/
theorem spec_C2_arg_swap :
    main_call "in.traj" Option.none 2 =
      { input := PyVal.pystr "in.traj",
        significant_figures := PyVal.pynone,
        output := PyVal.pyint 2 } ∧
      (main_call "in.traj" Option.none 2).significant_figures ≠ PyVal.pyint 2 := by
  refine ⟨rfl, ?_⟩
  intro h
  exact PyVal.noConfusion h

/-- C3: FALSE as stated.  For the two structures with energies -1.4489 and
-1.4501 the filter retains two structures at `significant_figures = 2` but
only one at `significant_figures = 3`: increasing the significant figures
strictly decreased the retained count. -/
theorem spec_C3_counterexample :
    (0:ℤ) < 2 ∧ (2:ℤ) < 3 ∧
      ¬ ((filter_local_minima exampleList3 2).length ≤
          (filter_local_minima exampleList3 3).length) := by
  refine ⟨by decide, by decide, ?_⟩
  rw [filter_output_length, filter_output_length, ex3_unique2, ex3_unique3]
  decide

/-- C3 (amended): increasing `significant_figures` can change the retained
count in either direction; what holds for all `0 < n < m` is that the count at
`n` is positive exactly when the count at `m` is positive (both are positive
precisely when some input structure has negative energy). -/
theorem spec_C3_amended (atoms : List Atoms) {n m : ℤ} (_hn : 0 < n) (_hm : n < m) :
    (0 < (filter_local_minima atoms n).length ↔
      0 < (filter_local_minima atoms m).length) := by
  rw [List.length_pos, List.length_pos, filter_output_ne_nil_iff,
    filter_output_ne_nil_iff]

theorem spec_C3_amended_witness :
    (0:ℤ) < 2 ∧ (2:ℤ) < 3 ∧
      (0 < (filter_local_minima exampleList3 2).length ↔
        0 < (filter_local_minima exampleList3 3).length) :=
  ⟨by decide, by decide, spec_C3_amended exampleList3 (by decide) (by decide)⟩

/-- C4: with positive `significant_figures`, the rounded energies of the
output are pairwise distinct, every rounded value occurring among the sorted
negative-energy structures is represented by exactly one retained structure,
and the retained structure of each rounded value is the one of smallest (most
negative) energy among the structures sharing that value — the lowest index in
the ascending-sorted array. -/
theorem spec_C4_unique_buckets (atoms : List Atoms) {n : ℤ} (_hn : 0 < n) :
    ((filter_local_minima atoms n).map
        (fun a => roundedEnergy n (get_potential_energy a))).Nodup ∧
      (∀ c ∈ negativeAtoms atoms, ∃! b, b ∈ filter_local_minima atoms n ∧
          roundedEnergy n (get_potential_energy b) =
            roundedEnergy n (get_potential_energy c)) ∧
      (∀ b ∈ filter_local_minima atoms n, ∀ c ∈ negativeAtoms atoms,
          roundedEnergy n (get_potential_energy c) =
            roundedEnergy n (get_potential_energy b) →
          get_potential_energy b ≤ get_potential_energy c) := by
  refine ⟨?_, ?_, ?_⟩
  · rw [filter_output_map_rounded]
    exact uniqueSorted_nodup atoms n
  · intro c hc
    have hv : roundedEnergy n (get_potential_energy c) ∈ uniqueSorted atoms n := by
      rw [mem_uniqueSorted, roundedList, potential_energies]
      exact List.mem_map_of_mem _ (List.mem_map_of_mem _ hc)
    refine ⟨representative atoms n (roundedEnergy n (get_potential_energy c)),
      ⟨?_, representative_rounded hv⟩, ?_⟩
    · rw [filter_local_minima_eq_map]
      exact List.mem_map_of_mem _ hv
    · rintro b ⟨hb, hbv⟩
      rw [filter_local_minima_eq_map] at hb
      obtain ⟨v, hv', rfl⟩ := List.mem_map.mp hb
      rw [representative_rounded hv'] at hbv
      rw [hbv]
  · intro b hb c hc hcb
    rw [filter_local_minima_eq_map] at hb
    obtain ⟨v, hv, rfl⟩ := List.mem_map.mp hb
    rw [representative_rounded hv] at hcb
    exact representative_min hv hc hcb

theorem spec_C4_unique_buckets_witness :
    (0:ℤ) < 2 ∧
      (((filter_local_minima exampleList1 2).map
          (fun a => roundedEnergy 2 (get_potential_energy a))).Nodup ∧
        (∀ c ∈ negativeAtoms exampleList1, ∃! b, b ∈ filter_local_minima exampleList1 2 ∧
            roundedEnergy 2 (get_potential_energy b) =
              roundedEnergy 2 (get_potential_energy c)) ∧
        (∀ b ∈ filter_local_minima exampleList1 2, ∀ c ∈ negativeAtoms exampleList1,
            roundedEnergy 2 (get_potential_energy c) =
              roundedEnergy 2 (get_potential_energy b) →
            get_potential_energy b ≤ get_potential_energy c)) :=
  ⟨by decide, spec_C4_unique_buckets exampleList1 (by decide)⟩

/-- C5: with positive `significant_figures` the output energies are
non-decreasing along the returned sequence. -/
theorem spec_C5_sorted_output (atoms : List Atoms) {n : ℤ} (hn : 0 < n) :
    (filter_local_minima atoms n).Sorted
      (fun a b => get_potential_energy a ≤ get_potential_energy b) :=
  filter_output_sorted atoms (by omega)

theorem spec_C5_sorted_output_witness :
    (0:ℤ) < 2 ∧
      (filter_local_minima exampleList1 2).Sorted
        (fun a b => get_potential_energy a ≤ get_potential_energy b) :=
  ⟨by decide, spec_C5_sorted_output exampleList1 (by decide)⟩

/-- C6: every structure with energy ≥ 0 is discarded, every output structure
has strictly negative energy, an all-non-negative input gives the empty
output, and the empty input gives the empty output. -/
theorem spec_C6_sign_filter (atoms : List Atoms) {n : ℤ} (_hn : 0 < n) :
    (∀ a ∈ atoms, 0 ≤ get_potential_energy a → a ∉ filter_local_minima atoms n) ∧
      (∀ b ∈ filter_local_minima atoms n, get_potential_energy b < 0) ∧
      ((∀ a ∈ atoms, 0 ≤ get_potential_energy a) → filter_local_minima atoms n = []) ∧
      filter_local_minima [] n = [] := by
  refine ⟨?_, ?_, fun h => filter_eq_nil_of_nonneg h n, filter_local_minima_nil n⟩
  · intro a _ ha hmem
    exact absurd (negativeAtoms_neg (mem_filter_output hmem)) (not_lt.mpr ha)
  · exact fun b hb => negativeAtoms_neg (mem_filter_output hb)

theorem spec_C6_sign_filter_witness :
    (0:ℤ) < 2 ∧
      ((∀ a ∈ exampleList1, 0 ≤ get_potential_energy a →
          a ∉ filter_local_minima exampleList1 2) ∧
        (∀ b ∈ filter_local_minima exampleList1 2, get_potential_energy b < 0) ∧
        ((∀ a ∈ exampleList1, 0 ≤ get_potential_energy a) →
          filter_local_minima exampleList1 2 = []) ∧
        filter_local_minima [] 2 = []) :=
  ⟨by decide, spec_C6_sign_filter exampleList1 (by decide)⟩

/-- C7: with positive `significant_figures` the filter is idempotent: applied
to its own output it returns the same structures in the same order. -/
theorem spec_C7_idempotent (atoms : List Atoms) {n : ℤ} (hn : 0 < n) :
    filter_local_minima (filter_local_minima atoms n) n = filter_local_minima atoms n :=
  filter_local_minima_idem atoms (by omega)

theorem spec_C7_idempotent_witness :
    (0:ℤ) < 2 ∧
      filter_local_minima (filter_local_minima exampleList1 2) 2 =
        filter_local_minima exampleList1 2 :=
  ⟨by decide, spec_C7_idempotent exampleList1 (by decide)⟩

/-- C8: two strictly negative energies are assigned the same rounded bucket by
the code's per-element rule (floor-log10 magnitude, derived decimal places,
half-even rounding) exactly when they agree to `n` significant figures in the
spec's sense, i.e. when rounding each onto the grid of its n-th significant
digit yields the same value. -/
theorem spec_C8_bucket_iff {n : ℤ} (_hn : 0 < n) {x y : ℚ} (_hx : x < 0) (_hy : y < 0) :
    (roundedEnergy n x = roundedEnergy n y ↔ roundToSigFig n x = roundToSigFig n y) := by
  rw [roundedEnergy_eq_roundToSigFig, roundedEnergy_eq_roundToSigFig]

theorem spec_C8_bucket_iff_witness :
    (0:ℤ) < 1 ∧ ((-1:ℚ) < 0) ∧ ((-2:ℚ) < 0) ∧
      (roundedEnergy 1 (-1) = roundedEnergy 1 (-2) ↔
        roundToSigFig 1 (-1) = roundToSigFig 1 (-2)) :=
  ⟨by decide, by norm_num, by norm_num,
    spec_C8_bucket_iff (by decide) (by norm_num) (by norm_num)⟩

/-- C9: FALSE as stated.  `filter_trajectory` has no `try`/`finally` or `with`
scoping: on the execution path where the read/filter step raises, the input
handle has been opened and is never closed. -/
theorem spec_C9_counterexample :
    ¬ handlesClosed
        (filter_trajectory_trace "results.traj" 2 Option.none [] true Option.none) := by
  intro h
  have h1 := h "results.traj" false
  rw [trace_filter_raise] at h1
  simp [List.count_cons, List.count_nil] at h1

/-- C9 (amended): on every execution where neither the read/filter step nor a
write raises, each opened trajectory handle is closed. -/
theorem spec_C9_amended (input : String) (n : ℤ) (output : Option String)
    (atomsIn : List Atoms) :
    handlesClosed (filter_trajectory_trace input n output atomsIn false Option.none) :=
  trace_success_closed input n output atomsIn

/-- C10: a structure whose stored energy is NaN fails the `< 0` mask (IEEE
comparisons with NaN are false), so it is discarded at the sign-filter step;
every structure that reaches the rounding step has an exact strictly negative
energy with positive absolute value, so the logarithm is never applied to 0 or
NaN. -/
theorem spec_C10_nan_safe (sortedF : List AtomsF) {a : AtomsF} (_ha : a ∈ sortedF)
    (hnan : a.energy = FloatVal.nan) :
    a ∉ negativeAtomsF sortedF ∧
      ∀ b ∈ negativeAtomsF sortedF, ∃ q : ℚ,
        b.energy = FloatVal.val q ∧ q < 0 ∧ 0 < |q| := by
  constructor
  · intro hmem
    rw [negativeAtomsF, List.mem_filter] at hmem
    simpa [floatLtZero, hnan] using hmem.2
  · intro b hb
    rw [negativeAtomsF, List.mem_filter] at hb
    have hb2 := hb.2
    cases hE : b.energy with
    | val q =>
      rw [hE] at hb2
      have hq : q < 0 := by simpa [floatLtZero] using hb2
      exact ⟨q, rfl, hq, abs_pos.mpr hq.ne⟩
    | nan =>
      rw [hE] at hb2
      exact absurd hb2 (by simp [floatLtZero])

theorem spec_C10_nan_safe_witness :
    ((⟨FloatVal.nan, 0⟩ : AtomsF) ∈ [(⟨FloatVal.nan, 0⟩ : AtomsF)]) ∧
      ((⟨FloatVal.nan, 0⟩ : AtomsF).energy = FloatVal.nan) ∧
      ((⟨FloatVal.nan, 0⟩ : AtomsF) ∉ negativeAtomsF [(⟨FloatVal.nan, 0⟩ : AtomsF)] ∧
        ∀ b ∈ negativeAtomsF [(⟨FloatVal.nan, 0⟩ : AtomsF)], ∃ q : ℚ,
          b.energy = FloatVal.val q ∧ q < 0 ∧ 0 < |q|) :=
  ⟨List.mem_singleton.mpr rfl, rfl,
    spec_C10_nan_safe _ (List.mem_singleton.mpr rfl) rfl⟩
